import Mathlib

/-!
Verification development for the `pz_scrapper` repository (src/main.py), a
Steam Workshop collection exporter.  The core pipeline is embedded shallowly:

* text is modelled as `List Char` (strings compared by exact equality, as in
  Python; `\s`, `.lower()`, `.strip()` and `int()` are modelled over ASCII,
  which covers every pattern the program uses);
* the two regex scans `re.findall(r'Mod ID:\s*(.+)', d, re.IGNORECASE)` and
  the `Map Folder` variant are embedded as `findAll`, a faithful left-to-right
  non-overlapping scanner for the pattern family `<key>\s*(.+)` with Python's
  backtracking semantics for greedy `\s*` followed by `(.+)` (where `.`
  matches every character except `'\n'`);
* interactive `input()` is modelled as an explicit list of operator replies
  threaded through the computation; an exhausted reply list means the program
  is still blocked on the prompt (`none` / `inputExhausted`);
* exceptions are modelled with `Except ApiError`; the network is an oracle
  `api : List Chars → Except ApiError (List FileData)`;
* recursions that are not structural in the scanned text use an explicit fuel
  argument equal to the text length, which is always sufficient because every
  step consumes at least one character; this keeps every definition kernel-
  reducible on concrete inputs.
-/

abbrev Chars := List Char

/-- Character list of a string literal. -/
def strChars (x : String) : Chars := x.data

/-- Python `\s` over ASCII: space, tab, newline, carriage return, vertical
tab, form feed. -/
def pySpace (c : Char) : Bool :=
  c == ' ' || c == '\t' || c == '\n' || c == '\r' || c == Char.ofNat 11 || c == Char.ofNat 12

/-- ASCII lower-casing, as used by `re.IGNORECASE` and `str.lower()` on the
ASCII keys of this program. -/
def toLowerCh (c : Char) : Char :=
  if 'A' ≤ c ∧ c ≤ 'Z' then Char.ofNat (c.toNat + 32) else c

/-- Python `str.strip()`: drop whitespace from both ends. -/
def pyStrip (l : Chars) : Chars :=
  ((l.dropWhile pySpace).reverse.dropWhile pySpace).reverse

/-- Python `str.lower()` (ASCII). -/
def pyLower (l : Chars) : Chars := l.map toLowerCh

/-- The `Mod ID:` pattern key, stored lower-cased. -/
def modKey : Chars := strChars ("mod id:")

/-- The `Map Folder:` pattern key, stored lower-cased. -/
def mapKey : Chars := strChars ("map folder:")

/-- Does the (lower-cased) key match case-insensitively at the head of `s`? -/
def keyPrefixCI : Chars → Chars → Bool
  | [], _ => true
  | _ :: _, [] => false
  | k :: ks, c :: cs => (toLowerCh c == k) && keyPrefixCI ks cs

/-- Does the key occur (case-insensitively) anywhere in `s`? -/
def containsCI (key : Chars) : Chars → Bool
  | [] => keyPrefixCI key []
  | c :: cs => keyPrefixCI key (c :: cs) || containsCI key cs

/-- Suffix of `s` after the first case-insensitive occurrence of the key. -/
def restAfterKey (key : Chars) : Chars → Option Chars
  | [] => if keyPrefixCI key [] then some [] else none
  | c :: cs =>
    if keyPrefixCI key (c :: cs) then some ((c :: cs).drop key.length)
    else restAfterKey key cs

/-- Index of the last character of `t` that is not `'\n'`. -/
def lastNonNl : Chars → Option Nat
  | [] => none
  | c :: rest =>
    match lastNonNl rest with
    | some j => some (j + 1)
    | none => if c == '\n' then none else some 0

/-- Regex tail `\s*(.+)` matched against `t` (Python semantics: greedy `\s*`,
then `(.+)` needs at least one non-newline character, backtracking the `\s*`
if necessary).  Returns the captured group and the total number of characters
consumed, or `none` when the tail cannot match. -/
def matchTail (t : Chars) : Option (Chars × Nat) :=
  let w := t.takeWhile pySpace
  if w.length < t.length then
    let g := (t.drop w.length).takeWhile (fun c => !(c == '\n'))
    some (g, w.length + g.length)
  else
    match lastNonNl t with
    | none => none
    | some j =>
      let g := (t.drop j).takeWhile (fun c => !(c == '\n'))
      some (g, j + g.length)

/-- Fuel-indexed scanner for `re.findall(key ++ r'\s*(.+)', s, IGNORECASE)`:
try to match at the current position; on success emit the group and resume
after the match, otherwise advance one character.  Fuel `s.length` is always
sufficient since every step consumes at least one character. -/
def findAllAux (key : Chars) : Nat → Chars → List Chars
  | 0, _ => []
  | _, [] => []
  | fuel + 1, c :: rest =>
    if keyPrefixCI key (c :: rest) then
      match matchTail ((c :: rest).drop key.length) with
      | some (g, n) => g :: findAllAux key fuel ((c :: rest).drop (key.length + n))
      | none => findAllAux key fuel rest
    else findAllAux key fuel rest

/-- All captured groups of the pattern `key\s*(.+)` in `s`, in scan order
(embeds `re.findall` at lines 84-85 of src/main.py). -/
def findAll (key s : Chars) : List Chars := findAllAux key s.length s

/-- The stray closing-rule marker `[/hr]`. -/
def marker : Chars := strChars ("[/hr]")

/-- Fuel-indexed form of Python `str.replace('[/hr]', '')`: remove every
non-overlapping occurrence, scanning left to right without rescanning. -/
def removeMarkerAux : Nat → Chars → Chars
  | 0, l => l
  | _, [] => []
  | fuel + 1, c :: rest =>
    if marker.isPrefixOf (c :: rest) then removeMarkerAux fuel ((c :: rest).drop marker.length)
    else c :: removeMarkerAux fuel rest

/-- Python `v.replace('[/hr]', '')`. -/
def removeMarker (l : Chars) : Chars := removeMarkerAux l.length l

/-- Normalization applied to each matched value at lines 87-88 of
src/main.py: `.strip().replace('\r','').replace('\n','').replace('[/hr]','')`. -/
def cleanValue (v : Chars) : Chars :=
  removeMarker (((pyStrip v).filter (fun c => !(c == '\r'))).filter (fun c => !(c == '\n')))

/-- The FieldExtractor: all matched values for one key, each normalized
(the list comprehensions at lines 87-88 before `remove_duplicates`). -/
def fieldCandidates (key d : Chars) : List Chars := (findAll key d).map cleanValue

/-- Order-preserving deduplication loop: the mutable `seen` set of
`remove_duplicates` (src/main.py lines 74-77). -/
def rdLoop (seen : List Chars) : List Chars → List Chars
  | [] => []
  | x :: xs => if x ∈ seen then rdLoop seen xs else x :: rdLoop (x :: seen) xs

/-- `remove_duplicates` (src/main.py lines 74-77): keep the first occurrence
of each element, in order. -/
def remove_duplicates (items : List Chars) : List Chars := rdLoop [] items

/-- Python `selected.split(',')` (note `''.split(',') == ['']`). -/
def splitComma : Chars → List Chars
  | [] => [[]]
  | c :: rest =>
    if c == ',' then [] :: splitComma rest
    else
      match splitComma rest with
      | [] => [[c]]
      | g :: gs => (c :: g) :: gs

/-- Value of a nonempty all-digit token. -/
def digitsVal (l : Chars) : Option Nat :=
  if l.isEmpty then none
  else if l.all (fun c => c.isDigit) then
    some (l.foldl (fun acc c => 10 * acc + (c.toNat - 48)) 0)
  else none

/-- Python `int(tok)`: strip whitespace, optional sign, decimal digits
(raises `ValueError`, i.e. `none`, otherwise).  Underscore digit separators
and non-ASCII digits accepted by CPython are not modelled; the program never
relies on them. -/
def parseInt (t : Chars) : Option Int :=
  match pyStrip t with
  | '+' :: rest => (digitsVal rest).map (fun n => (n : Int))
  | '-' :: rest => (digitsVal rest).map (fun n => -(n : Int))
  | u => (digitsVal u).map (fun n => (n : Int))

/-- The comprehension `[int(i.strip()) - 1 for i in selected.split(',')]`
up to the parse: all tokens as `Int`s, or `none` when any token raises
`ValueError` (the `- 1` shift is applied in `applyIndices`). -/
def parseTokens : List Chars → Option (List Int)
  | [] => some []
  | t :: ts =>
    match parseInt t with
    | none => none
    | some n => (parseTokens ts).map (fun l => n :: l)

/-- The selection `[items[i] for i in indices if 0 <= i < len(items)]` where
`indices` are the parsed 1-based entries shifted down by one: out-of-range
entries are silently dropped. -/
def applyIndices (items : List Chars) (ns : List Int) : List Chars :=
  (ns.map (fun n => n - 1)).filterMap
    (fun i => if 0 ≤ i then items[i.toNat]? else none)

/-- The literal reply token `all`. -/
def allTok : Chars := strChars ("all")

/-- `select_user_choice` (src/main.py lines 52-72).  `inputs` is the stream
of operator replies; the result is the chosen items plus the unconsumed
replies, or `none` when the reply stream is exhausted while the function is
still (re-)prompting.  An unparseable reply re-prompts (the recursive call at
line 72); a parseable reply returns the in-range selections immediately. -/
def select_user_choice (items : List Chars) (itemType : Chars) :
    List Chars → Option (List Chars × List Chars)
  | [] => if items.isEmpty then some ([], []) else none
  | raw :: rest =>
    if items.isEmpty then some ([], raw :: rest)
    else
      let selected := pyStrip raw
      if pyLower selected = allTok then some (items, rest)
      else
        match parseTokens (splitComma selected) with
        | some ns => some (applyIndices items ns, rest)
        | none => select_user_choice items itemType rest

/-- Error kinds of the Python exceptions the program can raise. -/
inductive ApiError where
  | http
  | keyError
  | indexError
  | valueError
  | dataShape
  | inputExhausted
deriving DecidableEq

/-- One element of `response['publishedfiledetails']`: the fields
`get_mod_info` touches, each optional as in a Python dict. -/
structure FileData where
  publishedfileid : Option Chars
  title : Option Chars
  description : Option Chars
deriving DecidableEq

/-- The dict returned by `get_mod_info` (src/main.py lines 102-107). -/
structure Record where
  title : Option Chars
  workshop_id : Chars
  mod_ids : List Chars
  map_ids : List Chars
deriving DecidableEq

/-- Deduplicated, normalized `Mod ID` candidates of a file (lines 84, 87). -/
def modCandsOf (f : FileData) : List Chars :=
  remove_duplicates (fieldCandidates modKey (f.description.getD []))

/-- Deduplicated, normalized `Map Folder` candidates of a file (lines 85, 88). -/
def mapCandsOf (f : FileData) : List Chars :=
  remove_duplicates (fieldCandidates mapKey (f.description.getD []))

/-- Display label for the mod field. -/
def modLabel : Chars := strChars ("Mod ID")

/-- Display label for the map field. -/
def mapLabel : Chars := strChars ("Map Folder")

/-- The `if len(xs) > 1: xs = select_user_choice(xs, label)` step of
`get_mod_info` (lines 90-100): candidate lists with at most one element are
kept unchanged with no interaction. -/
def resolveField (cands : List Chars) (label : Chars) (inputs : List Chars) :
    Option (List Chars × List Chars) :=
  if 1 < cands.length then select_user_choice cands label inputs
  else some (cands, inputs)

/-- `get_mod_info` (src/main.py lines 79-109): extract and deduplicate both
fields, resolve ambiguities interactively, then build the record — indexing
`file['publishedfileid']`, which raises (`dataShape`) when the identifier is
absent.  A blocked prompt (exhausted reply stream) is the `inputExhausted`
error, matching the `EOFError` CPython raises there. -/
def get_mod_info (f : FileData) (inputs : List Chars) :
    Except ApiError (Record × List Chars) :=
  match resolveField (modCandsOf f) modLabel inputs with
  | none => .error .inputExhausted
  | some (modSel, in1) =>
    match resolveField (mapCandsOf f) mapLabel in1 with
    | none => .error .inputExhausted
    | some (mapSel, in2) =>
      match f.publishedfileid with
      | none => .error .dataShape
      | some pid => .ok (⟨f.title, pid, modSel, mapSel⟩, in2)

/-- Fuel-indexed batch partition: `mod_ids[i:i+batch_size]` slices of the
loop `for i in range(0, len(mod_ids), batch_size)` (src/main.py line 117).
Fuel `ids.length` is sufficient whenever `0 < B`. -/
def batchesAux : Nat → List Chars → Nat → List (List Chars)
  | 0, _, _ => []
  | _, [], _ => []
  | fuel + 1, ids, B => ids.take B :: batchesAux fuel (ids.drop B) B

/-- The contiguous batches of `ids` with batch size `B`. -/
def batches (ids : List Chars) (B : Nat) : List (List Chars) :=
  batchesAux ids.length ids B

/-- The inner loop of `get_mods_data` (lines 127-128): build one record per
returned file, in order, threading the operator reply stream; any failure
aborts. -/
def run_files : List FileData → List Chars → Except ApiError (List Record × List Chars)
  | [], inputs => .ok ([], inputs)
  | f :: fs, inputs =>
    match get_mod_info f inputs with
    | .error e => .error e
    | .ok (r, in1) =>
      match run_files fs in1 with
      | .error e => .error e
      | .ok (rs, in2) => .ok (r :: rs, in2)

/-- The batch loop of `get_mods_data` (lines 117-130): one retrieval call per
batch via the oracle `api`, then the per-file records; any failure aborts the
whole run. -/
def run_batches (api : List Chars → Except ApiError (List FileData)) :
    List (List Chars) → List Chars → Except ApiError (List Record × List Chars)
  | [], inputs => .ok ([], inputs)
  | b :: rest, inputs =>
    match api b with
    | .error e => .error e
    | .ok files =>
      match run_files files inputs with
      | .error e => .error e
      | .ok (rs, in1) =>
        match run_batches api rest in1 with
        | .error e => .error e
        | .ok (rs2, in2) => .ok (rs ++ rs2, in2)

/-- `get_mods_data` (src/main.py lines 111-136).  `range(0, n, 0)` raises
`ValueError` in Python, hence the `B = 0` guard. -/
def get_mods_data (api : List Chars → Except ApiError (List FileData))
    (ids : List Chars) (B : Nat) (inputs : List Chars) :
    Except ApiError (List Record × List Chars) :=
  if B = 0 then .error .valueError
  else run_batches api (batches ids B) inputs

/-- Observable side effects of the batch loop: one retrieval call per batch,
and the unconditional `sleep(delay)` after each successfully processed batch
(line 130); a raised exception stops the trace. -/
inductive Ev where
  | call (batch : List Chars)
  | pause
deriving DecidableEq

/-- Event trace of the batch loop, mirroring the control flow of
`run_batches`: the call happens first, the pause only after the batch's
records were built without an exception. -/
def trace_batches (api : List Chars → Except ApiError (List FileData)) :
    List (List Chars) → List Chars → List Ev
  | [], _ => []
  | b :: rest, inputs =>
    Ev.call b ::
      match api b with
      | .error _ => []
      | .ok files =>
        match run_files files inputs with
        | .error _ => []
        | .ok (_, in1) => Ev.pause :: trace_batches api rest in1

/-- Event trace of `get_mods_data`. -/
def get_mods_trace (api : List Chars → Except ApiError (List FileData))
    (ids : List Chars) (B : Nat) (inputs : List Chars) : List Ev :=
  if B = 0 then [] else trace_batches api (batches ids B) inputs

/-- One member descriptor of the collection response: the two fields
`get_collection_mod_ids` touches. -/
structure CollChild where
  publishedfileid : Option Chars
  filetype : Option Int
deriving DecidableEq

/-- One element of `data['response']['collectiondetails']`. -/
structure CollDetail where
  children : Option (List CollChild)
deriving DecidableEq

/-- The comprehension `[child['publishedfileid'] for child in children if
child.get('filetype') == 0]` (line 44): evaluated left to right, raising
(`keyError`) when a retained child lacks its identifier. -/
def collectChildIds : List CollChild → Except ApiError (List Chars)
  | [] => .ok []
  | c :: cs =>
    if c.filetype == some 0 then
      match c.publishedfileid with
      | none => .error .keyError
      | some pid =>
        match collectChildIds cs with
        | .error e => .error e
        | .ok l => .ok (pid :: l)
    else collectChildIds cs

/-- `get_collection_mod_ids` (src/main.py lines 30-50) applied to the parsed
response body: `data['response']['collectiondetails']` may be absent
(`KeyError`) or empty (`IndexError` from `[0]`); a missing `children` key
defaults to `[]` via `.get('children', [])`. -/
def get_collection_mod_ids (details : Option (List CollDetail)) :
    Except ApiError (List Chars) :=
  match details with
  | none => .error .keyError
  | some [] => .error .indexError
  | some (d :: _) => collectChildIds (d.children.getD [])

/-- The `valid` dict of `ask_yes_no` (line 153). -/
def lookupValid (c : Chars) : Option Bool :=
  if c = strChars ("yes") then some true
  else if c = strChars ("y") then some true
  else if c = strChars ("no") then some false
  else if c = strChars ("n") then some false
  else none

/-- Python truthiness of the `default` argument in `choice == '' and default`. -/
def defaultTruthy : Option Chars → Bool
  | none => false
  | some d => !d.isEmpty

/-- The `while True` loop of `ask_yes_no` (lines 161-168).  The
`valid[default]` lookup cannot fail for the defaults admitted by the prompt
dict, which `ask_yes_no` checks first; the `none` in that branch is therefore
unreachable from `ask_yes_no`. -/
def askLoop (default : Option Chars) : List Chars → Option (Bool × List Chars)
  | [] => none
  | raw :: rest =>
    let choice := pyLower (pyStrip raw)
    if choice = [] ∧ defaultTruthy default then
      match lookupValid (default.getD []) with
      | some b => some (b, rest)
      | none => none
    else
      match lookupValid choice with
      | some b => some (b, rest)
      | none => askLoop default rest

/-- `ask_yes_no` (src/main.py lines 149-168): the prompt dict at lines
155-159 raises `KeyError` for any default other than `None`, `"yes"`, `"no"`
before any input is read; otherwise the reply loop runs (`none` = blocked on
an exhausted reply stream). -/
def ask_yes_no (default : Option Chars) (inputs : List Chars) :
    Except ApiError (Option (Bool × List Chars)) :=
  if default = none ∨ default = some (strChars ("yes")) ∨ default = some (strChars ("no")) then
    .ok (askLoop default inputs)
  else .error .keyError

/-- The aggregation loop of `__main__` (lines 184-187): workshop ids, mod ids
and map ids of all records, appended in record order. -/
def aggregate : List Record → List Chars × List Chars × List Chars
  | [] => ([], [], [])
  | r :: rs =>
    let t := aggregate rs
    (r.workshop_id :: t.1, r.mod_ids ++ t.2.1, r.map_ids ++ t.2.2)

/-- The vanilla map name appended at line 190. -/
def muldraugh : Chars := strChars ("Muldraugh, KY")

/-- The map sequence handed to the exporter: the aggregated map ids, plus
`"Muldraugh, KY"` at the end when the operator confirmed (lines 189-190). -/
def finalMaps (recs : List Record) (confirm : Bool) : List Chars :=
  (aggregate recs).2.2 ++ (if confirm then [muldraugh] else [])

/-- Python `';'.join(ms)`. -/
def joinSemi : List Chars → Chars
  | [] => []
  | [m] => m
  | m :: ms => m ++ ';' :: joinSemi ms

/-- The `Map=` line written by `export_to_file` (line 144). -/
def exportMapLine (ms : List Chars) : Chars := strChars ("Map=") ++ joinSemi ms

/-- Spec-side: a reply that cannot be parsed at all (neither `all` nor an
integer list), which only re-prompts. -/
def badInput (inp : Chars) : Bool :=
  let sel := pyStrip inp
  !(pyLower sel == allTok) && (parseTokens (splitComma sel)).isNone

/-- Boolean no-duplicates check on integer lists. -/
def nodupB : List Int → Bool
  | [] => true
  | x :: xs => !(xs.contains x) && nodupB xs

/-- Spec-side: a reply that cannot put a duplicate into a selection — `all`,
an unparseable reply (which only re-prompts), or a list of pairwise distinct
indices. -/
def goodInput (inp : Chars) : Bool :=
  let sel := pyStrip inp
  (pyLower sel == allTok) ||
    match parseTokens (splitComma sel) with
    | none => true
    | some ns => nodupB (ns.map (fun n => n - 1))

/-- Spec-side: is the tail `t` a line boundary, i.e. the empty rest of the
description or a rest beginning with `'\n'`? -/
def NlBound (t : Chars) : Prop := t = [] ∨ ∃ u, t = '\n' :: u

/-- Spec-side: the value the scanner captures for one line, when the line
contains the key — the suffix after the first key occurrence, with leading
whitespace dropped. -/
def lineVal (key ℓ : Chars) : Option Chars :=
  (restAfterKey key ℓ).map (fun b => b.dropWhile pySpace)

/-- Spec-side: a line on which the scanner behaves line-locally — if the key
occurs, something non-whitespace follows it on the same line (otherwise the
greedy `\s*` of the regex crosses the line boundary). -/
def goodLineB (key ℓ : Chars) : Bool :=
  match restAfterKey key ℓ with
  | none => true
  | some b => b.any (fun c => !(pySpace c))

/-- Spec-side: join lines with `'\n'` separators. -/
def joinLines : List Chars → Chars
  | [] => []
  | [l] => l
  | l :: ls => l ++ '\n' :: joinLines ls

/-! ### Deduplicator: properties of `remove_duplicates` -/

theorem rdLoop_sublist (xs : List Chars) : ∀ seen, List.Sublist (rdLoop seen xs) xs := by
  induction xs with
  | nil => intro seen; simp [rdLoop]
  | cons x xs ih =>
    intro seen
    simp only [rdLoop]
    split
    · exact (ih seen).cons x
    · exact (ih (x :: seen)).cons₂ x

theorem mem_rdLoop (y : Chars) (xs : List Chars) :
    ∀ seen, y ∈ rdLoop seen xs ↔ y ∈ xs ∧ y ∉ seen := by
  induction xs with
  | nil => intro seen; simp [rdLoop]
  | cons x xs ih =>
    intro seen
    simp only [rdLoop]
    split
    · rename_i hx
      rw [ih seen]
      by_cases hyx : y = x
      · subst hyx; simp [hx]
      · simp [hyx]
    · rename_i hx
      by_cases hyx : y = x
      · subst hyx; simp [hx]
      · simp only [List.mem_cons, hyx, false_or, ih (x :: seen)]

theorem rdLoop_nodup (xs : List Chars) : ∀ seen, (rdLoop seen xs).Nodup := by
  induction xs with
  | nil => intro seen; simp [rdLoop]
  | cons x xs ih =>
    intro seen
    simp only [rdLoop]
    split
    · exact ih seen
    · refine List.nodup_cons.mpr ⟨?_, ih (x :: seen)⟩
      intro hmem
      exact ((mem_rdLoop x xs (x :: seen)).mp hmem).2 (List.mem_cons_self x seen)

theorem rdLoop_eq_self (xs : List Chars) :
    ∀ seen, xs.Nodup → (∀ x ∈ xs, x ∉ seen) → rdLoop seen xs = xs := by
  induction xs with
  | nil => intro seen _ _; simp [rdLoop]
  | cons x xs ih =>
    intro seen hnd hdisj
    have hx : x ∉ seen := hdisj x (List.mem_cons_self x xs)
    simp only [rdLoop, if_neg hx]
    congr 1
    refine ih (x :: seen) (List.nodup_cons.mp hnd).2 ?_
    intro y hy hmem
    rcases List.mem_cons.mp hmem with h | h
    · exact (List.nodup_cons.mp hnd).1 (h ▸ hy)
    · exact hdisj y (List.mem_cons_of_mem _ hy) h

theorem rdLoop_congr (xs : List Chars) :
    ∀ s1 s2, (∀ y : Chars, y ∈ s1 ↔ y ∈ s2) → rdLoop s1 xs = rdLoop s2 xs := by
  induction xs with
  | nil => intro s1 s2 _; simp [rdLoop]
  | cons x xs ih =>
    intro s1 s2 h
    simp only [rdLoop]
    by_cases hx : x ∈ s1
    · rw [if_pos hx, if_pos ((h x).mp hx)]
      exact ih s1 s2 h
    · rw [if_neg hx, if_neg (fun hc => hx ((h x).mpr hc))]
      congr 1
      refine ih (x :: s1) (x :: s2) ?_
      intro y
      simp [List.mem_cons, h y]

theorem rdLoop_filter (xs : List Chars) :
    ∀ (seen : List Chars) (a : Chars),
      rdLoop (a :: seen) xs = rdLoop seen (xs.filter (fun y => !(y == a))) := by
  induction xs with
  | nil => intro seen a; simp [rdLoop]
  | cons x xs ih =>
    intro seen a
    by_cases hxa : x = a
    · subst hxa
      have hmem : x ∈ x :: seen := List.mem_cons_self x seen
      rw [List.filter_cons]
      simp only [rdLoop, if_pos hmem, beq_self_eq_true, Bool.not_true,
        Bool.false_eq_true, if_false]
      exact ih seen x
    · have hkeep : (!(x == a)) = true := by
        simp [hxa]
      simp only [rdLoop, List.filter_cons, hkeep, if_pos rfl]
      by_cases hxs : x ∈ seen
      · have h1 : x ∈ a :: seen := List.mem_cons_of_mem _ hxs
        simp only [rdLoop, if_pos h1, if_pos hxs]
        exact ih seen a
      · have h1 : x ∉ a :: seen := by
          intro hc
          rcases List.mem_cons.mp hc with h | h
          · exact hxa h
          · exact hxs h
        simp only [rdLoop, if_neg h1, if_neg hxs]
        congr 1
        calc rdLoop (x :: a :: seen) xs
            = rdLoop (a :: x :: seen) xs := by
              refine rdLoop_congr xs _ _ ?_
              intro y; simp [List.mem_cons]; tauto
          _ = rdLoop (x :: seen) (xs.filter (fun y => !(y == a))) := ih (x :: seen) a

theorem remove_duplicates_cons (x : Chars) (xs : List Chars) :
    remove_duplicates (x :: xs) =
      x :: remove_duplicates (xs.filter (fun y => !(y == x))) := by
  simp only [remove_duplicates, rdLoop, List.not_mem_nil, if_neg (fun h => h)]
  rw [rdLoop_filter]

/-- Claim C7: `remove_duplicates` keeps each distinct element exactly once in
first-appearance order (it is a duplicate-free sublist with the same
membership, whose head is the head of its input and whose tail deduplicates
the remaining occurrences of the other elements), and it is idempotent. -/
theorem C7_dedup : ∀ s1 : List Chars,
    (remove_duplicates s1).Nodup
    ∧ remove_duplicates (remove_duplicates s1) = remove_duplicates s1
    ∧ List.Sublist (remove_duplicates s1) s1
    ∧ (∀ x, x ∈ remove_duplicates s1 ↔ x ∈ s1)
    ∧ ∀ (x : Chars) (xs : List Chars),
        remove_duplicates (x :: xs) =
          x :: remove_duplicates (xs.filter (fun y => !(y == x))) := by
  intro s1
  refine ⟨rdLoop_nodup s1 [], ?_, rdLoop_sublist s1 [], ?_, remove_duplicates_cons⟩
  · exact rdLoop_eq_self _ [] (rdLoop_nodup s1 []) (by simp)
  · intro x
    rw [remove_duplicates, mem_rdLoop]
    simp

/-! ### ItemRecordBuilder: missing identifier is fatal (C9) -/

/-- Claim C9: a raw item whose source record lacks `publishedfileid` makes
`get_mod_info` raise an error — it never produces a record for that item. -/
theorem C9_missing_id (f : FileData) (inputs : List Chars)
    (h : f.publishedfileid = none) :
    (∃ e, get_mod_info f inputs = .error e)
    ∧ ∀ rec rem, get_mod_info f inputs ≠ .ok (rec, rem) := by
  have hmain : ∃ e, get_mod_info f inputs = .error e := by
    rcases hm : resolveField (modCandsOf f) modLabel inputs with _ | ⟨modSel, in1⟩
    · exact ⟨.inputExhausted, by simp [get_mod_info, hm]⟩
    · rcases hp : resolveField (mapCandsOf f) mapLabel in1 with _ | ⟨mapSel, in2⟩
      · exact ⟨.inputExhausted, by simp [get_mod_info, hm, hp]⟩
      · exact ⟨.dataShape, by simp [get_mod_info, hm, hp, h]⟩
  refine ⟨hmain, ?_⟩
  rcases hmain with ⟨e, he⟩
  intro rec rem hok
  rw [he] at hok
  exact Except.noConfusion hok

theorem C9_missing_id_witness :
    (⟨none, none, none⟩ : FileData).publishedfileid = none
    ∧ ∃ e, get_mod_info ⟨none, none, none⟩ [] = .error e :=
  ⟨rfl, (C9_missing_id ⟨none, none, none⟩ [] rfl).1⟩

/-! ### CollectionResolver (C8) -/

theorem collectChildIds_ok (cs : List CollChild)
    (h : ∀ c ∈ cs, c.filetype = some 0 → (c.publishedfileid).isSome = true) :
    collectChildIds cs =
      .ok ((cs.filter (fun c => c.filetype == some 0)).filterMap
        (fun c => c.publishedfileid)) := by
  induction cs with
  | nil => rfl
  | cons c cs ih =>
    have hrest : ∀ c2 ∈ cs, c2.filetype = some 0 → (c2.publishedfileid).isSome = true :=
      fun c2 hc2 => h c2 (List.mem_cons_of_mem _ hc2)
    by_cases hft : c.filetype = some 0
    · have hb : (c.filetype == some 0) = true := by simp [hft]
      obtain ⟨pid, hpid⟩ :=
        Option.isSome_iff_exists.mp (h c (List.mem_cons_self c cs) hft)
      simp [collectChildIds, hb, hpid, ih hrest, List.filter_cons,
        List.filterMap_cons]
    · have hb : (c.filetype == some 0) = false := by simp [hft]
      simp only [collectChildIds, hb, List.filter_cons, ih hrest]
      simp

/-- Claim C8: the collection resolver returns exactly the member identifiers
whose `filetype` marker is `0`, in response order (given each retained member
carries its identifier), and an absent or empty member list yields an empty
result rather than an error. -/
theorem C8_collection (d : CollDetail) (ds : List CollDetail)
    (h : ∀ c ∈ d.children.getD [], c.filetype = some 0 → (c.publishedfileid).isSome = true) :
    get_collection_mod_ids (some (d :: ds)) =
      .ok (((d.children.getD []).filter (fun c => c.filetype == some 0)).filterMap
        (fun c => c.publishedfileid))
    ∧ (d.children = none → get_collection_mod_ids (some (d :: ds)) = .ok [])
    ∧ (d.children = some [] → get_collection_mod_ids (some (d :: ds)) = .ok []) := by
  refine ⟨?_, ?_, ?_⟩
  · simpa [get_collection_mod_ids] using collectChildIds_ok _ h
  · intro hnone
    simp [get_collection_mod_ids, hnone, collectChildIds]
  · intro hempty
    simp [get_collection_mod_ids, hempty, collectChildIds]

theorem C8_collection_witness :
    (∀ c ∈ [(⟨some (strChars ("1")), some 0⟩ : CollChild),
        ⟨none, some 2⟩, ⟨some (strChars ("3")), some 0⟩],
      c.filetype = some 0 → (c.publishedfileid).isSome = true)
    ∧ get_collection_mod_ids
        (some [⟨some [⟨some (strChars ("1")), some 0⟩,
          ⟨none, some 2⟩, ⟨some (strChars ("3")), some 0⟩]⟩]) =
        .ok [strChars ("1"), strChars ("3")] :=
  ⟨by decide,
    (C8_collection ⟨some [⟨some (strChars ("1")), some 0⟩,
      ⟨none, some 2⟩, ⟨some (strChars ("3")), some 0⟩]⟩ [] (by decide)).1⟩

/-! ### AmbiguityResolver (C3, C4) -/

theorem isEmpty_false_of_ne_nil {items : List Chars} (h : items ≠ []) :
    items.isEmpty = false := by
  cases items with
  | nil => exact absurd rfl h
  | cons a as => rfl

/-- Claim C3 counterexample: on the two-candidate list `["a", "b"]` the
out-of-range reply `5` does not re-prompt — the resolver returns at once,
with an empty selection. -/
theorem C3_counterexample :
    select_user_choice [strChars ("a"), strChars ("b")] modLabel [strChars ("5")] =
      some ([], []) := by
  rfl

/-- Claim C3, amended: a reply that parses to no integer list at all (a
non-numeric token or a malformed comma-separated list) re-prompts, and does
so indefinitely while such replies keep coming, never surfacing an error;
but a parseable reply returns immediately with its out-of-range indices
silently dropped (so an entirely out-of-range reply yields an empty
selection rather than a re-prompt). -/
theorem C3_amended (items : List Chars) (label : Chars) :
    (∀ (inp : Chars) (rest : List Chars), items ≠ [] → badInput inp = true →
        select_user_choice items label (inp :: rest) =
          select_user_choice items label rest)
    ∧ (∀ inputs : List Chars, items ≠ [] → (∀ i ∈ inputs, badInput i = true) →
        select_user_choice items label inputs = none)
    ∧ (∀ (inp : Chars) (rest : List Chars) (ns : List Int), items ≠ [] →
        pyLower (pyStrip inp) ≠ allTok →
        parseTokens (splitComma (pyStrip inp)) = some ns →
        select_user_choice items label (inp :: rest) =
          some (applyIndices items ns, rest)) := by
  have hstep : ∀ (inp : Chars) (rest : List Chars), items ≠ [] → badInput inp = true →
      select_user_choice items label (inp :: rest) =
        select_user_choice items label rest := by
    intro inp rest hne hbad
    simp only [badInput, Bool.and_eq_true, Bool.not_eq_true',
      Option.isNone_iff_eq_none] at hbad
    have hall : ¬ (pyLower (pyStrip inp) = allTok) := by
      intro hc
      rw [hc] at hbad
      simp at hbad
    simp only [select_user_choice, isEmpty_false_of_ne_nil hne,
      Bool.false_eq_true, if_false, if_neg hall, hbad.2]
  refine ⟨hstep, ?_, ?_⟩
  · intro inputs
    induction inputs with
    | nil =>
      intro hne _
      simp [select_user_choice, isEmpty_false_of_ne_nil hne]
    | cons inp rest ih =>
      intro hne hbad
      rw [hstep inp rest hne (hbad inp (List.mem_cons_self inp rest))]
      exact ih hne (fun i hi => hbad i (List.mem_cons_of_mem _ hi))
  · intro inp rest ns hne hall hsome
    simp only [select_user_choice, isEmpty_false_of_ne_nil hne,
      Bool.false_eq_true, if_false, if_neg hall, hsome]

theorem C3_amended_witness :
    badInput (strChars ("x")) = true
    ∧ select_user_choice [strChars ("a"), strChars ("b")] modLabel
        [strChars ("x")] = none :=
  ⟨by decide,
    (C3_amended [strChars ("a"), strChars ("b")] modLabel).2.1 [strChars ("x")]
      (by decide) (by decide)⟩

theorem getD_of_getElem? {l : List Chars} {n : Nat} {v : Chars}
    (h : l[n]? = some v) : l.getD n [] = v := by
  rw [List.getD_eq_getElem?_getD, h]
  rfl

theorem applyIndices_in_range (items : List Chars) (ns : List Int)
    (h : ∀ i ∈ ns, 1 ≤ i ∧ i ≤ (items.length : Int)) :
    applyIndices items ns = ns.map (fun i => items.getD (i - 1).toNat []) := by
  induction ns with
  | nil => rfl
  | cons n ns ih =>
    obtain ⟨h1, h2⟩ := h n (List.mem_cons_self n ns)
    have hrest := ih (fun i hi => h i (List.mem_cons_of_mem _ hi))
    have hpos : (0 : Int) ≤ n - 1 := by omega
    have hlt : (n - 1).toNat < items.length := by omega
    have hpick : (if (0 : Int) ≤ n - 1 then items[(n - 1).toNat]? else none) =
        some (items.getD (n - 1).toNat []) := by
      rw [if_pos hpos, List.getElem?_eq_getElem hlt]
      exact congrArg some (getD_of_getElem? (List.getElem?_eq_getElem hlt)).symm
    simp only [applyIndices, List.map_cons, List.filterMap_cons, hpick]
    simp only [applyIndices] at hrest
    rw [hrest]

/-- Claim C4 counterexample: invoked directly on the single-candidate list
`["a"]`, the resolver does interact — it consumes the reply `2` and returns
the empty selection instead of the lone candidate. -/
theorem C4_counterexample :
    select_user_choice [strChars ("a")] modLabel [strChars ("2")] =
      some ([], []) := by
  rfl

/-- Claim C4, amended: the resolver returns the empty list for a zero-length
candidate list without consuming a reply; a single-candidate (or empty)
field is kept unchanged with no interaction by the record builder, which
only invokes the resolver for more than one candidate (the resolver function
itself, invoked directly on a single candidate, does prompt); the reply
`all` selects all candidates in original order; and a reply parsing to
in-range 1-based indices selects the candidates at those indices in the
order the operator listed them. -/
theorem C4_amended :
    (∀ (label : Chars) (inputs : List Chars),
        select_user_choice [] label inputs = some ([], inputs))
    ∧ (∀ (f : FileData) (pid : Chars) (inputs : List Chars),
        f.publishedfileid = some pid →
        (modCandsOf f).length ≤ 1 → (mapCandsOf f).length ≤ 1 →
        get_mod_info f inputs =
          .ok (⟨f.title, pid, modCandsOf f, mapCandsOf f⟩, inputs))
    ∧ (∀ (items : List Chars) (label : Chars) (rest : List Chars), items ≠ [] →
        select_user_choice items label (allTok :: rest) = some (items, rest))
    ∧ (∀ (items : List Chars) (label inp : Chars) (rest : List Chars) (ns : List Int),
        items ≠ [] →
        pyLower (pyStrip inp) ≠ allTok →
        parseTokens (splitComma (pyStrip inp)) = some ns →
        (∀ i ∈ ns, 1 ≤ i ∧ i ≤ (items.length : Int)) →
        select_user_choice items label (inp :: rest) =
          some (ns.map (fun i => items.getD (i - 1).toNat []), rest)) := by
  refine ⟨?_, ?_, ?_, ?_⟩
  · intro label inputs
    cases inputs <;> simp [select_user_choice]
  · intro f pid inputs hpid hmod hmap
    have h1 : resolveField (modCandsOf f) modLabel inputs = some (modCandsOf f, inputs) := by
      unfold resolveField
      rw [if_neg (by omega)]
    have h2 : resolveField (mapCandsOf f) mapLabel inputs = some (mapCandsOf f, inputs) := by
      unfold resolveField
      rw [if_neg (by omega)]
    simp [get_mod_info, h1, h2, hpid]
  · intro items label rest hne
    have hcond : pyLower (pyStrip allTok) = allTok := by decide
    simp only [select_user_choice, isEmpty_false_of_ne_nil hne,
      Bool.false_eq_true, if_false, if_pos hcond]
  · intro items label inp rest ns hne hall hsome hrange
    simp only [select_user_choice, isEmpty_false_of_ne_nil hne,
      Bool.false_eq_true, if_false, if_neg hall, hsome,
      applyIndices_in_range items ns hrange]

theorem C4_amended_witness :
    parseTokens (splitComma (pyStrip (strChars ("2,1")))) = some [2, 1]
    ∧ select_user_choice [strChars ("a"), strChars ("b")] modLabel
        [strChars ("2,1")] = some ([strChars ("b"), strChars ("a")], []) := by
  refine ⟨by decide, ?_⟩
  have h := C4_amended.2.2.2 [strChars ("a"), strChars ("b")] modLabel
    (strChars ("2,1")) [] [2, 1] (by decide) (by decide) (by decide) (by decide)
  exact h.trans (by decide)

/-! ### ItemRecordBuilder duplicates (C2) -/

theorem nodupB_sound : ∀ l : List Int, nodupB l = true → l.Nodup := by
  intro l
  induction l with
  | nil => intro _; exact List.nodup_nil
  | cons x xs ih =>
    intro h
    simp only [nodupB, Bool.and_eq_true, Bool.not_eq_true'] at h
    refine List.nodup_cons.mpr ⟨?_, ih h.2⟩
    intro hmem
    have : xs.contains x = true := by simpa using hmem
    rw [h.1] at this
    exact Bool.noConfusion this

theorem applyIndices_nodup (items : List Chars) (hits : items.Nodup)
    (ns : List Int) (hns : (ns.map (fun n => n - 1)).Nodup) :
    (applyIndices items ns).Nodup := by
  unfold applyIndices
  generalize (ns.map fun n => n - 1) = ms at hns
  induction ms with
  | nil => simp
  | cons m ms ih =>
    rcases List.nodup_cons.mp hns with ⟨hm, hms⟩
    rw [List.filterMap_cons]
    rcases hpick : (if (0 : Int) ≤ m then items[m.toNat]? else none) with _ | v
    · exact ih hms
    · refine List.nodup_cons.mpr ⟨?_, ih hms⟩
      intro hvmem
      rw [List.mem_filterMap] at hvmem
      obtain ⟨m2, hm2mem, hm2⟩ := hvmem
      have h0m : (0 : Int) ≤ m := by
        by_contra hc
        rw [if_neg hc] at hpick
        exact Option.noConfusion hpick
      have h0m2 : (0 : Int) ≤ m2 := by
        by_contra hc
        rw [if_neg hc] at hm2
        exact Option.noConfusion hm2
      rw [if_pos h0m] at hpick
      rw [if_pos h0m2] at hm2
      have hlt : m.toNat < items.length := by
        rcases List.getElem?_eq_some.mp hpick with ⟨hh, _⟩
        exact hh
      have heq : m.toNat = m2.toNat := by
        refine List.getElem?_inj hlt hits ?_
        rw [hpick, hm2]
      have : m = m2 := by omega
      exact hm (this ▸ hm2mem)

theorem select_user_choice_nodup (items : List Chars) (label : Chars)
    (hits : items.Nodup) :
    ∀ (inputs : List Chars) (res rem : List Chars),
      (∀ i ∈ inputs, goodInput i = true) →
      select_user_choice items label inputs = some (res, rem) →
      res.Nodup ∧ ∀ x ∈ rem, x ∈ inputs := by
  intro inputs
  induction inputs with
  | nil =>
    intro res rem _ h
    simp only [select_user_choice] at h
    split at h
    · rcases h with ⟨rfl, rfl⟩
      exact ⟨List.nodup_nil, by simp⟩
    · exact Option.noConfusion h
  | cons raw rest ih =>
    intro res rem hgood h
    simp only [select_user_choice] at h
    split at h
    · rcases h with ⟨rfl, rfl⟩
      exact ⟨List.nodup_nil, fun x hx => hx⟩
    · split at h
      · rcases h with ⟨rfl, rfl⟩
        exact ⟨hits, fun x hx => List.mem_cons_of_mem _ hx⟩
      · rename_i hnotall
        split at h
        · rename_i ns hns
          rcases h with ⟨rfl, rfl⟩
          have hg := hgood raw (List.mem_cons_self raw rest)
          simp only [goodInput, Bool.or_eq_true] at hg
          rcases hg with hg | hg
          · exact absurd (by simpa using hg) hnotall
          · rw [hns] at hg
            exact ⟨applyIndices_nodup items hits ns (nodupB_sound _ hg),
              fun x hx => List.mem_cons_of_mem _ hx⟩
        · have h2 := ih res rem (fun i hi => hgood i (List.mem_cons_of_mem _ hi)) h
          exact ⟨h2.1, fun x hx => List.mem_cons_of_mem _ (h2.2 x hx)⟩

theorem resolveField_nodup (cands : List Chars) (label : Chars)
    (hc : cands.Nodup) (inputs sel rem : List Chars)
    (hgood : ∀ i ∈ inputs, goodInput i = true)
    (h : resolveField cands label inputs = some (sel, rem)) :
    sel.Nodup ∧ ∀ x ∈ rem, x ∈ inputs := by
  unfold resolveField at h
  split at h
  · exact select_user_choice_nodup cands label hc inputs sel rem hgood h
  · rcases h with ⟨rfl, rfl⟩
    exact ⟨hc, fun x hx => hx⟩

/-- Claim C2 counterexample: on the description `Mod ID: a\nMod ID: b` the
operator reply `1,1` produces a record whose `mod_ids` is `["a", "a"]` — a
duplicate, because repeated indices are passed through unchanged. -/
theorem C2_counterexample :
    get_mod_info ⟨some (strChars ("123")), some (strChars ("T")),
        some (strChars ("Mod ID: a\nMod ID: b"))⟩ [strChars ("1,1")] =
      .ok (⟨some (strChars ("T")), strChars ("123"),
        [strChars ("a"), strChars ("a")], []⟩, [])
    ∧ ¬ List.Nodup [strChars ("a"), strChars ("a")] :=
  ⟨rfl, by decide⟩

/-- Claim C2, amended: a record's `mod_ids`/`map_ids` contain no duplicates
provided every operator reply consumed during resolution is `all`, an
unparseable reply (which only re-prompts), or a list of pairwise-distinct
indices; a reply repeating an index (such as `1,1`) can produce a record
with duplicated entries. -/
theorem C2_amended (f : FileData) (inputs : List Chars) (rec : Record)
    (rem : List Chars)
    (hgood : ∀ i ∈ inputs, goodInput i = true)
    (h : get_mod_info f inputs = .ok (rec, rem)) :
    rec.mod_ids.Nodup ∧ rec.map_ids.Nodup := by
  unfold get_mod_info at h
  split at h
  · exact Except.noConfusion h
  next modSel in1 hm =>
    split at h
    · exact Except.noConfusion h
    next mapSel in2 hp =>
      split at h
      · exact Except.noConfusion h
      next pid hpid =>
        injection h with h1
        obtain ⟨rfl, rfl⟩ := Prod.mk.injEq .. ▸ h1
        have hmod := resolveField_nodup (modCandsOf f) modLabel
          (rdLoop_nodup _ []) inputs modSel in1 hgood hm
        have hmap := resolveField_nodup (mapCandsOf f) mapLabel
          (rdLoop_nodup _ []) in1 mapSel in2
          (fun i hi => hgood i (hmod.2 i hi)) hp
        exact ⟨hmod.1, hmap.1⟩

theorem C2_amended_witness :
    (∀ i ∈ [strChars ("2,1")], goodInput i = true)
    ∧ List.Nodup (Record.mod_ids ⟨some (strChars ("T")), strChars ("123"),
        [strChars ("b"), strChars ("a")], []⟩) :=
  ⟨by decide,
    (C2_amended ⟨some (strChars ("123")), some (strChars ("T")),
        some (strChars ("Mod ID: a\nMod ID: b"))⟩ [strChars ("2,1")]
      ⟨some (strChars ("T")), strChars ("123"),
        [strChars ("b"), strChars ("a")], []⟩ [] (by decide) rfl).1⟩

/-! ### Aggregation and the Muldraugh confirmation (C10) -/

theorem joinSemi_cons (m : Chars) (ms : List Chars) (h : ms ≠ []) :
    joinSemi (m :: ms) = m ++ ';' :: joinSemi ms := by
  cases ms with
  | nil => exact absurd rfl h
  | cons a as => rfl

theorem length_joinSemi_concat (ms : List Chars) (x : Chars) :
    (joinSemi (ms ++ [x])).length =
      (if ms.isEmpty then 0 else (joinSemi ms).length + 1) + x.length := by
  induction ms with
  | nil => simp [joinSemi]
  | cons m ms ih =>
    rw [List.cons_append, joinSemi_cons m (ms ++ [x]) (by simp)]
    cases ms with
    | nil =>
      simp only [joinSemi, List.nil_append, List.length_append,
        List.length_cons, List.isEmpty_cons, Bool.false_eq_true, if_false]
      omega
    | cons b bs =>
      rw [joinSemi_cons m (b :: bs) (by simp)]
      simp only [List.length_append, List.length_cons, List.isEmpty_cons,
        Bool.false_eq_true, if_false] at ih ⊢
      omega

/-- Claim C10: after aggregation, a yes answer (including the accepted
default: an empty reply, `y`, or `yes`) makes the fixed string
`Muldraugh, KY` be appended at the end of the map sequence even though it
came from no item, so the exported `Map=` line differs between the two
answers on the very same records — it is not a pure function of the
collection's items. -/
theorem C10_muldraugh : ∀ (recs : List Record) (rest : List Chars),
    ask_yes_no (some (strChars ("yes"))) (([] : Chars) :: rest) =
      .ok (some (true, rest))
    ∧ ask_yes_no (some (strChars ("yes"))) (strChars ("y") :: rest) =
      .ok (some (true, rest))
    ∧ ask_yes_no (some (strChars ("yes"))) (strChars ("yes") :: rest) =
      .ok (some (true, rest))
    ∧ finalMaps recs true = (aggregate recs).2.2 ++ [muldraugh]
    ∧ finalMaps recs false = (aggregate recs).2.2
    ∧ exportMapLine (finalMaps recs true) ≠ exportMapLine (finalMaps recs false) := by
  intro recs rest
  have h1 : finalMaps recs true = (aggregate recs).2.2 ++ [muldraugh] := by
    simp [finalMaps]
  have h2 : finalMaps recs false = (aggregate recs).2.2 := by
    simp [finalMaps]
  refine ⟨rfl, rfl, rfl, h1, h2, ?_⟩
  intro heq
  rw [h1, h2, exportMapLine, exportMapLine] at heq
  have hl := congrArg List.length heq
  rw [List.length_append, List.length_append, length_joinSemi_concat] at hl
  have hm13 : muldraugh.length = 13 := by decide
  rw [hm13] at hl
  by_cases he : (aggregate recs).2.2.isEmpty = true
  · rw [if_pos he] at hl
    have hnil : (aggregate recs).2.2 = [] := by
      cases h : (aggregate recs).2.2 with
      | nil => rfl
      | cons a as => rw [h] at he; exact Bool.noConfusion he
    rw [hnil] at hl
    simp [joinSemi] at hl
  · rw [if_neg he] at hl
    omega

/-! ### BatchFetcher (C5, C6) -/

theorem batchesAux_irrel (B : Nat) (hB : 0 < B) :
    ∀ (f1 : Nat) (ids : List Chars) (f2 : Nat),
      ids.length ≤ f1 → ids.length ≤ f2 →
      batchesAux f1 ids B = batchesAux f2 ids B := by
  intro f1
  induction f1 with
  | zero =>
    intro ids f2 h1 _
    have hnil : ids = [] := by
      cases ids with
      | nil => rfl
      | cons a as => simp at h1
    subst hnil
    cases f2 <;> rfl
  | succ f1 ih =>
    intro ids f2 h1 h2
    cases ids with
    | nil => cases f2 <;> rfl
    | cons c rest =>
      cases f2 with
      | zero => simp at h2
      | succ f2 =>
        simp only [batchesAux]
        congr 1
        refine ih ((c :: rest).drop B) f2 ?_ ?_
        · simp only [List.length_drop, List.length_cons] at *
          omega
        · simp only [List.length_drop, List.length_cons] at *
          omega

theorem batches_cons (ids : List Chars) (B : Nat) (hB : 0 < B) (hne : ids ≠ []) :
    batches ids B = ids.take B :: batches (ids.drop B) B := by
  cases ids with
  | nil => exact absurd rfl hne
  | cons c rest =>
    show batchesAux (rest.length + 1) (c :: rest) B = _
    simp only [batchesAux]
    congr 1
    refine batchesAux_irrel B hB rest.length ((c :: rest).drop B)
      ((c :: rest).drop B).length ?_ (Nat.le_refl _)
    simp only [List.length_drop, List.length_cons]
    omega

theorem batches_join_le (B : Nat) (hB : 0 < B) :
    ∀ (n : Nat) (ids : List Chars), ids.length ≤ n →
      (batches ids B).flatten = ids := by
  intro n
  induction n with
  | zero =>
    intro ids h
    have hnil : ids = [] := by
      cases ids with
      | nil => rfl
      | cons a as => simp at h
    subst hnil; rfl
  | succ n ih =>
    intro ids h
    cases hne : ids with
    | nil => rfl
    | cons c rest =>
      rw [← hne, batches_cons ids B hB (by rw [hne]; simp)]
      have hdrop : (ids.drop B).length ≤ n := by
        rw [List.length_drop]
        rw [hne] at h ⊢
        simp only [List.length_cons] at h ⊢
        omega
      simp only [List.flatten_cons, ih (ids.drop B) hdrop]
      exact List.take_append_drop B ids

theorem batches_flatten (ids : List Chars) (B : Nat) (hB : 0 < B) :
    (batches ids B).flatten = ids :=
  batches_join_le B hB ids.length ids (Nat.le_refl _)

theorem batches_sizes_le (B : Nat) (hB : 0 < B) :
    ∀ (n : Nat) (ids : List Chars), ids.length ≤ n →
      ∀ b ∈ batches ids B, b.length ≤ B := by
  intro n
  induction n with
  | zero =>
    intro ids h b hb
    have hnil : ids = [] := by
      cases ids with
      | nil => rfl
      | cons a as => simp at h
    subst hnil
    exact absurd hb (List.not_mem_nil b)
  | succ n ih =>
    intro ids h b hb
    cases hne : ids with
    | nil =>
      subst hne
      exact absurd hb (List.not_mem_nil b)
    | cons c rest =>
      rw [batches_cons ids B hB (by rw [hne]; simp)] at hb
      rcases List.mem_cons.mp hb with rfl | hbr
      · rw [List.length_take]
        exact Nat.min_le_left B ids.length
      · refine ih (ids.drop B) ?_ b hbr
        rw [List.length_drop]
        rw [hne] at h ⊢
        simp only [List.length_cons] at h ⊢
        omega

theorem batches_count_le (B : Nat) (hB : 0 < B) :
    ∀ (n : Nat) (ids : List Chars), ids.length ≤ n →
      (batches ids B).length = (ids.length + B - 1) / B := by
  intro n
  induction n with
  | zero =>
    intro ids h
    have hnil : ids = [] := by
      cases ids with
      | nil => rfl
      | cons a as => simp at h
    subst hnil
    simp [batches, batchesAux, Nat.div_eq_of_lt (by omega : B - 1 < B)]
  | succ n ih =>
    intro ids h
    cases hne : ids with
    | nil =>
      subst hne
      simp [batches, batchesAux, Nat.div_eq_of_lt (by omega : B - 1 < B)]
    | cons c rest =>
      have hpos : 1 ≤ ids.length := by rw [hne]; simp
      have hdrop : (ids.drop B).length ≤ n := by
        rw [List.length_drop]
        rw [hne] at h ⊢
        simp only [List.length_cons] at h ⊢
        omega
      rw [← hne, batches_cons ids B hB (by rw [hne]; simp), List.length_cons,
        ih (ids.drop B) hdrop, List.length_drop]
      have hsplit : ids.length + B - 1 = (ids.length - 1) + B := by omega
      rw [hsplit, Nat.add_div_right _ hB]
      congr 1
      rcases le_or_lt ids.length B with hle | hlt
      · have h1 : ids.length - B + B - 1 = B - 1 := by omega
        rw [h1, Nat.div_eq_of_lt (by omega : B - 1 < B),
          Nat.div_eq_of_lt (by omega : ids.length - 1 < B)]
      · have h1 : ids.length - B + B - 1 = ids.length - 1 := by omega
        rw [h1]

theorem run_files_append (xs ys : List FileData) :
    ∀ inputs : List Chars, run_files (xs ++ ys) inputs =
      match run_files xs inputs with
      | .error e => .error e
      | .ok (rs, in1) =>
        match run_files ys in1 with
        | .error e => .error e
        | .ok (rs2, in2) => .ok (rs ++ rs2, in2) := by
  induction xs with
  | nil =>
    intro inputs
    simp only [List.nil_append, run_files]
    rcases run_files ys inputs with e | ⟨rs2, in2⟩ <;> simp
  | cons f fs ih =>
    intro inputs
    have hstep : run_files ((f :: fs) ++ ys) inputs =
        match get_mod_info f inputs with
        | .error e => .error e
        | .ok (r, in1) =>
          match run_files (fs ++ ys) in1 with
          | .error e => .error e
          | .ok (rs, in2) => .ok (r :: rs, in2) := rfl
    have hstep2 : run_files (f :: fs) inputs =
        match get_mod_info f inputs with
        | .error e => .error e
        | .ok (r, in1) =>
          match run_files fs in1 with
          | .error e => .error e
          | .ok (rs, in2) => .ok (r :: rs, in2) := rfl
    rw [hstep, hstep2]
    split
    · rfl
    · rename_i r in1 hg
      rw [ih in1]
      rcases hfs : run_files fs in1 with e | ⟨rs, in2⟩
      · rfl
      · rcases hys : run_files ys in2 with e | ⟨rs2, in3⟩ <;> simp [hys]

theorem run_batches_eq (api : List Chars → Except ApiError (List FileData))
    (files : List Chars → List FileData) :
    ∀ (bs : List (List Chars)) (inputs : List Chars),
      (∀ b ∈ bs, api b = .ok (files b)) →
      run_batches api bs inputs = run_files (bs.map files).flatten inputs := by
  intro bs
  induction bs with
  | nil => intro inputs _; rfl
  | cons b rest ih =>
    intro inputs hapi
    have hb := hapi b (List.mem_cons_self b rest)
    simp only [run_batches, hb, List.map_cons, List.flatten_cons]
    rw [run_files_append]
    have ih2 : ∀ inp : List Chars, run_batches api rest inp =
        run_files (List.map files rest).flatten inp :=
      fun inp => ih inp (fun x hx => hapi x (List.mem_cons_of_mem _ hx))
    simp only [ih2]

theorem run_batches_ok_api (api : List Chars → Except ApiError (List FileData)) :
    ∀ (bs : List (List Chars)) (inputs : List Chars) (recs : List Record)
      (rem : List Chars),
      run_batches api bs inputs = .ok (recs, rem) →
      ∀ b ∈ bs, ∃ fs, api b = .ok fs := by
  intro bs
  induction bs with
  | nil =>
    intro inputs recs rem _ b hb
    exact absurd hb (List.not_mem_nil b)
  | cons b0 rest ih =>
    intro inputs recs rem h b hb
    simp only [run_batches] at h
    split at h
    · exact Except.noConfusion h
    next fs ha =>
      split at h
      · exact Except.noConfusion h
      next rs in1 hf =>
        split at h
        · exact Except.noConfusion h
        next rs2 in2 hr =>
          rcases List.mem_cons.mp hb with rfl | hbr
          · exact ⟨fs, ha⟩
          · exact ih in1 rs2 in2 hr b hbr

theorem run_batches_err (api : List Chars → Except ApiError (List FileData)) :
    ∀ (bs : List (List Chars)) (inputs : List Chars),
      (∃ b ∈ bs, ∃ e0, api b = .error e0) →
      ∃ e, run_batches api bs inputs = .error e := by
  intro bs
  induction bs with
  | nil =>
    intro inputs h
    rcases h with ⟨b, hb, _⟩
    exact absurd hb (List.not_mem_nil b)
  | cons b0 rest ih =>
    intro inputs h
    rcases ha : api b0 with e | fs
    · exact ⟨e, by simp [run_batches, ha]⟩
    · have hrest : ∃ b ∈ rest, ∃ e0, api b = .error e0 := by
        rcases h with ⟨b, hb, e0, he0⟩
        rcases List.mem_cons.mp hb with rfl | hbr
        · rw [ha] at he0
          exact Except.noConfusion he0
        · exact ⟨b, hbr, e0, he0⟩
      rcases hf : run_files fs inputs with e | ⟨rs, in1⟩
      · exact ⟨e, by simp [run_batches, ha, hf]⟩
      · rcases ih in1 hrest with ⟨e, he⟩
        exact ⟨e, by simp [run_batches, ha, hf, he]⟩

theorem trace_batches_ok (api : List Chars → Except ApiError (List FileData)) :
    ∀ (bs : List (List Chars)) (inputs : List Chars) (recs : List Record)
      (rem : List Chars),
      run_batches api bs inputs = .ok (recs, rem) →
      trace_batches api bs inputs = bs.flatMap (fun b => [Ev.call b, Ev.pause]) := by
  intro bs
  induction bs with
  | nil => intro inputs recs rem _; rfl
  | cons b0 rest ih =>
    intro inputs recs rem h
    simp only [run_batches] at h
    split at h
    · exact Except.noConfusion h
    next fs ha =>
      split at h
      · exact Except.noConfusion h
      next rs in1 hf =>
        split at h
        · exact Except.noConfusion h
        next rs2 in2 hr =>
          simp only [trace_batches, ha, hf, List.flatMap_cons]
          rw [ih in1 rs2 in2 hr]
          rfl

/-- Claim C5: with batch size `B ≥ 1` and every batch retrieval succeeding,
`get_mods_data` partitions the `n` identifiers into `ceil(n/B)` contiguous
batches of size at most `B` whose concatenation is the original list,
behaves exactly like processing the flattened per-batch files in order
(records preserve batch and intra-batch order), issues exactly one retrieval
call per batch with a pause after every batch including the last, and for
`n = 0` issues zero calls and returns the empty record list. -/
theorem C5_batching (api : List Chars → Except ApiError (List FileData))
    (files : List Chars → List FileData) (ids : List Chars) (B : Nat)
    (inputs : List Chars) (hB : 0 < B)
    (hapi : ∀ b ∈ batches ids B, api b = .ok (files b)) :
    (batches ids B).length = (ids.length + B - 1) / B
    ∧ (∀ b ∈ batches ids B, b.length ≤ B)
    ∧ (batches ids B).flatten = ids
    ∧ get_mods_data api ids B inputs =
        run_files ((batches ids B).map files).flatten inputs
    ∧ (∀ recs rem, get_mods_data api ids B inputs = .ok (recs, rem) →
        get_mods_trace api ids B inputs =
          (batches ids B).flatMap (fun b => [Ev.call b, Ev.pause]))
    ∧ (ids = [] → get_mods_data api ids B inputs = .ok ([], inputs)
        ∧ get_mods_trace api ids B inputs = []) := by
  have hBne : ¬ B = 0 := by omega
  refine ⟨batches_count_le B hB ids.length ids (Nat.le_refl _),
    batches_sizes_le B hB ids.length ids (Nat.le_refl _),
    batches_flatten ids B hB, ?_, ?_, ?_⟩
  · rw [get_mods_data, if_neg hBne]
    exact run_batches_eq api files (batches ids B) inputs hapi
  · intro recs rem h
    rw [get_mods_data, if_neg hBne] at h
    rw [get_mods_trace, if_neg hBne]
    exact trace_batches_ok api (batches ids B) inputs recs rem h
  · intro h0
    subst h0
    constructor
    · rw [get_mods_data, if_neg hBne]
      rfl
    · rw [get_mods_trace, if_neg hBne]
      rfl

theorem C5_batching_witness :
    0 < 1
    ∧ (batches [strChars ("7"), strChars ("8")] 1).flatten =
        [strChars ("7"), strChars ("8")] :=
  ⟨by decide,
    (C5_batching (fun _ => .ok []) (fun _ => []) [strChars ("7"), strChars ("8")]
      1 [] (by decide) (fun b hb => rfl)).2.2.1⟩

/-- Claim C6: if any batch's retrieval call fails, `get_mods_data`
propagates an error and returns no partial record list — a successful result
implies every batch's call succeeded. -/
theorem C6_abort (api : List Chars → Except ApiError (List FileData))
    (ids : List Chars) (B : Nat) (inputs : List Chars) (hB : 0 < B) :
    (∀ recs rem, get_mods_data api ids B inputs = .ok (recs, rem) →
      ∀ b ∈ batches ids B, ∃ fs, api b = .ok fs)
    ∧ ((∃ b ∈ batches ids B, ∃ e0, api b = .error e0) →
      ∃ e, get_mods_data api ids B inputs = .error e) := by
  have hBne : ¬ B = 0 := by omega
  constructor
  · intro recs rem h b hb
    rw [get_mods_data, if_neg hBne] at h
    exact run_batches_ok_api api (batches ids B) inputs recs rem h b hb
  · intro hfail
    rcases run_batches_err api (batches ids B) inputs hfail with ⟨e, he⟩
    refine ⟨e, ?_⟩
    rw [get_mods_data, if_neg hBne]
    exact he

theorem C6_abort_witness :
    0 < 1
    ∧ ∃ e, get_mods_data (fun _ => .error ApiError.http) [strChars ("9")] 1 [] =
        .error e :=
  ⟨by decide,
    (C6_abort (fun _ => .error ApiError.http) [strChars ("9")] 1 [] (by decide)).2
      ⟨[strChars ("9")], by decide, ApiError.http, rfl⟩⟩

/-! ### FieldExtractor: scanner stepping lemmas (C1) -/

theorem pySpace_nl : pySpace '\n' = true := by decide

theorem toLowerCh_nl : toLowerCh '\n' = '\n' := by decide

theorem matchTail_pos (t : Chars) (g : Chars) (n : Nat)
    (h : matchTail t = some (g, n)) : 0 < n := by
  cases t with
  | nil => simp [matchTail, lastNonNl] at h
  | cons c rest =>
    simp only [matchTail] at h
    split at h
    · injection h with h1
      injection h1 with hg hn
      subst hn
      rcases hw : ((c :: rest).takeWhile pySpace) with _ | ⟨w0, ws⟩
      · have hc : pySpace c = false := by
          cases hcc : pySpace c with
          | false => rfl
          | true =>
            rw [List.takeWhile_cons, if_pos hcc] at hw
            exact List.noConfusion hw
        have hcn : (c == '\n') = false := by
          cases hbeq : (c == '\n') with
          | false => rfl
          | true =>
            have hcnl : c = '\n' := by simpa using hbeq
            rw [hcnl, pySpace_nl] at hc
            exact Bool.noConfusion hc
        simp only [List.length_nil, List.drop_zero, Nat.zero_add]
        rw [List.takeWhile_cons, if_pos (by simp [hcn])]
        simp
      · simp only [List.length_cons]
        omega
    · split at h
      · exact Option.noConfusion h
      · rename_i j hj
        injection h with h1
        injection h1 with hg hn
        subst hn
        cases j with
        | zero =>
          have hcn : (c == '\n') = false := by
            simp only [lastNonNl] at hj
            split at hj
            · rename_i j2 hj2
              injection hj with hj0
              exact absurd hj0 (by omega)
            · split at hj
              · exact Option.noConfusion hj
              · rename_i hcc
                cases hbeq : (c == '\n') with
                | false => rfl
                | true => exact absurd hbeq hcc
          simp only [List.drop_zero, Nat.zero_add]
          rw [List.takeWhile_cons, if_pos (by simp [hcn])]
          simp
        | succ j2 => omega

theorem findAllAux_irrel (key : Chars) :
    ∀ (f1 : Nat) (s : Chars) (f2 : Nat), s.length ≤ f1 → s.length ≤ f2 →
      findAllAux key f1 s = findAllAux key f2 s := by
  intro f1
  induction f1 with
  | zero =>
    intro s f2 h1 _
    have hnil : s = [] := by
      cases s with
      | nil => rfl
      | cons a as => simp at h1
    subst hnil
    cases f2 <;> rfl
  | succ f1 ih =>
    intro s f2 h1 h2
    cases s with
    | nil => cases f2 <;> rfl
    | cons c rest =>
      cases f2 with
      | zero => simp at h2
      | succ f2 =>
        rcases hm : matchTail ((c :: rest).drop key.length) with _ | ⟨g, n⟩
        · simp only [findAllAux, hm]
          split
          · refine ih rest f2 ?_ ?_
            · simp only [List.length_cons] at *; omega
            · simp only [List.length_cons] at *; omega
          · refine ih rest f2 ?_ ?_
            · simp only [List.length_cons] at *; omega
            · simp only [List.length_cons] at *; omega
        · have hn := matchTail_pos _ _ _ hm
          simp only [findAllAux, hm]
          split
          · congr 1
            refine ih _ f2 ?_ ?_
            · simp only [List.length_drop, List.length_cons] at *
              omega
            · simp only [List.length_drop, List.length_cons] at *
              omega
          · refine ih rest f2 ?_ ?_
            · simp only [List.length_cons] at *; omega
            · simp only [List.length_cons] at *; omega

theorem findAll_nil (key : Chars) : findAll key [] = [] := rfl

theorem findAll_cons_neg (key : Chars) (c : Char) (rest : Chars)
    (h : keyPrefixCI key (c :: rest) = false) :
    findAll key (c :: rest) = findAll key rest := by
  show findAllAux key (rest.length + 1) (c :: rest) = findAllAux key rest.length rest
  simp only [findAllAux, h, Bool.false_eq_true, if_false]

theorem findAll_cons_none (key : Chars) (c : Char) (rest : Chars)
    (h : keyPrefixCI key (c :: rest) = true)
    (hm : matchTail ((c :: rest).drop key.length) = none) :
    findAll key (c :: rest) = findAll key rest := by
  show findAllAux key (rest.length + 1) (c :: rest) = findAllAux key rest.length rest
  simp only [findAllAux]
  rw [if_pos h, hm]

theorem findAll_cons_match (key : Chars) (c : Char) (rest g : Chars) (n : Nat)
    (h : keyPrefixCI key (c :: rest) = true)
    (hm : matchTail ((c :: rest).drop key.length) = some (g, n)) :
    findAll key (c :: rest) = g :: findAll key ((c :: rest).drop (key.length + n)) := by
  have hn := matchTail_pos _ _ _ hm
  show findAllAux key (rest.length + 1) (c :: rest) = _
  simp only [findAllAux]
  rw [if_pos h, hm]
  show g :: findAllAux key rest.length ((c :: rest).drop (key.length + n)) = _
  congr 1
  refine findAllAux_irrel key rest.length _ _ ?_ (Nat.le_refl _)
  simp only [List.length_drop, List.length_cons]
  omega

theorem keyPrefixCI_le_length (key : Chars) :
    ∀ s, keyPrefixCI key s = true → key.length ≤ s.length := by
  induction key with
  | nil => intro s _; simp
  | cons k ks ih =>
    intro s h
    cases s with
    | nil => exact Bool.noConfusion h
    | cons c cs =>
      simp only [keyPrefixCI, Bool.and_eq_true] at h
      simp only [List.length_cons]
      exact Nat.succ_le_succ (ih cs h.2)

theorem keyPrefixCI_append (key : Chars) :
    ∀ (a z : Chars), keyPrefixCI key a = true → keyPrefixCI key (a ++ z) = true := by
  induction key with
  | nil => intro a z _; rfl
  | cons k ks ih =>
    intro a z h
    cases a with
    | nil => exact Bool.noConfusion h
    | cons c cs =>
      simp only [keyPrefixCI, Bool.and_eq_true] at h
      simp only [List.cons_append, keyPrefixCI, Bool.and_eq_true]
      exact ⟨h.1, ih cs z h.2⟩

theorem keyPrefixCI_boundary :
    ∀ (a key : Chars), '\n' ∉ key → ∀ t : Chars, NlBound t →
      keyPrefixCI key (a ++ t) = keyPrefixCI key a := by
  intro a
  induction a with
  | nil =>
    intro key hk t ht
    cases key with
    | nil => rfl
    | cons k ks =>
      rcases ht with rfl | ⟨u, rfl⟩
      · rfl
      · simp only [List.nil_append, keyPrefixCI, toLowerCh_nl]
        have hkn : ('\n' == k) = false := by
          refine beq_eq_false_iff_ne.mpr ?_
          intro hc
          exact hk (by rw [hc]; exact List.mem_cons_self _ _)
        rw [hkn]
        rfl
  | cons c a2 ih =>
    intro key hk t ht
    cases key with
    | nil => rfl
    | cons k ks =>
      simp only [List.cons_append, keyPrefixCI, List.append_eq]
      have hks : '\n' ∉ ks := fun hc => hk (List.mem_cons_of_mem _ hc)
      rw [ih ks hks t ht]

theorem takeWhile_append_of_any {p : Char → Bool} :
    ∀ (a z : Chars), a.any (fun x => !(p x)) = true →
      (a ++ z).takeWhile p = a.takeWhile p := by
  intro a
  induction a with
  | nil => intro z h; simp at h
  | cons x a2 ih =>
    intro z h
    rw [List.cons_append, List.takeWhile_cons, List.takeWhile_cons]
    cases hp : p x with
    | false => rfl
    | true =>
      have h2 : a2.any (fun x => !(p x)) = true := by
        simp only [List.any_cons, hp, Bool.not_true, Bool.false_or] at h
        exact h
      simp [ih z h2]

theorem takeWhile_length_lt {p : Char → Bool} :
    ∀ a : Chars, a.any (fun x => !(p x)) = true →
      (a.takeWhile p).length < a.length := by
  intro a
  induction a with
  | nil => intro h; simp at h
  | cons x a2 ih =>
    intro h
    rw [List.takeWhile_cons]
    cases hp : p x with
    | false => simp
    | true =>
      have h2 : a2.any (fun x => !(p x)) = true := by
        simp only [List.any_cons, hp, Bool.not_true, Bool.false_or] at h
        exact h
      have h3 := ih h2
      simp
      omega

theorem drop_length_takeWhile (p : Char → Bool) :
    ∀ b : Chars, b.drop (b.takeWhile p).length = b.dropWhile p := by
  intro b
  induction b with
  | nil => rfl
  | cons x b2 ih =>
    rw [List.takeWhile_cons, List.dropWhile_cons]
    cases hp : p x with
    | false => simp
    | true =>
      simp only [if_pos rfl, List.length_cons, List.drop_succ_cons]
      exact ih

theorem matchTail_spec (b u : Chars) (hnb : b.any (fun c => !(pySpace c)) = true)
    (hnl : '\n' ∉ b) (hu : NlBound u) :
    matchTail (b ++ u) = some (b.dropWhile pySpace, b.length) := by
  have hw : (b ++ u).takeWhile pySpace = b.takeWhile pySpace :=
    takeWhile_append_of_any b u hnb
  have hwlt : (b.takeWhile pySpace).length < b.length := takeWhile_length_lt b hnb
  have hsplit : b.takeWhile pySpace ++ b.dropWhile pySpace = b :=
    List.takeWhile_append_dropWhile pySpace b
  simp only [matchTail, hw]
  rw [if_pos (by rw [List.length_append]; omega)]
  have hdrop : (b ++ u).drop (b.takeWhile pySpace).length = b.dropWhile pySpace ++ u := by
    rw [List.drop_append_of_le_length (by omega), drop_length_takeWhile]
  rw [hdrop]
  have hall : ∀ x ∈ b.dropWhile pySpace, (fun c => !(c == '\n')) x = true := by
    intro x hx
    have hxb : x ∈ b := by
      rw [← hsplit]
      exact List.mem_append_right _ hx
    have hne : x ≠ '\n' := fun hc => hnl (hc ▸ hxb)
    simp [hne]
  have hg : (b.dropWhile pySpace ++ u).takeWhile (fun c => !(c == '\n')) =
      b.dropWhile pySpace := by
    rw [List.takeWhile_append_of_pos hall]
    rcases hu with rfl | ⟨u2, rfl⟩
    · simp
    · rw [List.takeWhile_cons]
      simp
  rw [hg]
  have hlen : (b.takeWhile pySpace).length + (b.dropWhile pySpace).length = b.length := by
    conv_rhs => rw [← hsplit]
    rw [List.length_append]
  rw [hlen]

theorem findAll_nlhead (key : Chars) (hk : key ≠ []) (hnlk : '\n' ∉ key)
    (u : Chars) : findAll key ('\n' :: u) = findAll key u := by
  refine findAll_cons_neg key '\n' u ?_
  cases key with
  | nil => exact absurd rfl hk
  | cons k ks =>
    simp only [keyPrefixCI, toLowerCh_nl]
    have hkn : ('\n' == k) = false := by
      refine beq_eq_false_iff_ne.mpr ?_
      intro hc
      exact hnlk (by rw [hc]; exact List.mem_cons_self _ _)
    rw [hkn]
    rfl

theorem findAll_skip (key : Chars) (_hk : key ≠ []) (hnlk : '\n' ∉ key) :
    ∀ (l t : Chars), containsCI key l = false → NlBound t →
      findAll key (l ++ t) = findAll key t := by
  intro l
  induction l with
  | nil => intro t _ _; rfl
  | cons c l2 ih =>
    intro t hcont ht
    have hsplit : keyPrefixCI key (c :: l2) = false ∧ containsCI key l2 = false := by
      cases h1 : keyPrefixCI key (c :: l2) with
      | true =>
        simp only [containsCI, h1, Bool.true_or] at hcont
        exact Bool.noConfusion hcont
      | false =>
        simp only [containsCI, h1, Bool.false_or] at hcont
        exact ⟨rfl, hcont⟩
    have hb := keyPrefixCI_boundary (c :: l2) key hnlk t ht
    rw [List.cons_append] at hb
    rw [List.cons_append, findAll_cons_neg key c (l2 ++ t) (by rw [hb]; exact hsplit.1)]
    exact ih t hsplit.2 ht

theorem findAll_line (key : Chars) (hk : key ≠ []) (hnlk : '\n' ∉ key) :
    ∀ (l b t : Chars), '\n' ∉ l →
      restAfterKey key l = some b →
      b.any (fun c => !(pySpace c)) = true →
      NlBound t →
      findAll key (l ++ t) = b.dropWhile pySpace :: findAll key t := by
  intro l
  induction l with
  | nil =>
    intro b t _ hr _ _
    simp only [restAfterKey] at hr
    split at hr
    · rename_i hkp
      cases key with
      | nil => exact absurd rfl hk
      | cons k ks => exact Bool.noConfusion hkp
    · exact Option.noConfusion hr
  | cons c l2 ih =>
    intro b t hnl hr hb ht
    by_cases hp : keyPrefixCI key (c :: l2) = true
    · have hrb : b = (c :: l2).drop key.length := by
        simp only [restAfterKey, if_pos hp] at hr
        injection hr with hr2
        exact hr2.symm
      have hklen : key.length ≤ (c :: l2).length := keyPrefixCI_le_length key _ hp
      have hpre2 : keyPrefixCI key ((c :: l2) ++ t) = true := keyPrefixCI_append key _ t hp
      have hnlb : '\n' ∉ b := by
        rw [hrb]
        intro hc
        exact hnl (List.drop_subset _ _ hc)
      have hmt : matchTail (((c :: l2) ++ t).drop key.length) =
          some (b.dropWhile pySpace, b.length) := by
        rw [List.drop_append_of_le_length hklen, ← hrb]
        exact matchTail_spec b t hb hnlb ht
      have hlen : key.length + b.length = (c :: l2).length := by
        rw [hrb, List.length_drop]
        omega
      rw [List.cons_append,
        findAll_cons_match key c (l2 ++ t) (b.dropWhile pySpace) b.length hpre2 hmt]
      congr 1
      rw [← List.cons_append, hlen, List.drop_left]
    · have hr2 : restAfterKey key l2 = some b := by
        simp only [restAfterKey, if_neg hp] at hr
        exact hr
      have hb2 := keyPrefixCI_boundary (c :: l2) key hnlk t ht
      rw [List.cons_append] at hb2
      have hpf : keyPrefixCI key (c :: (l2 ++ t)) = false := by
        rw [hb2]
        cases hcc : keyPrefixCI key (c :: l2) with
        | false => rfl
        | true => exact absurd hcc hp
      rw [List.cons_append, findAll_cons_neg key c (l2 ++ t) hpf]
      exact ih b t (fun hc => hnl (List.mem_cons_of_mem _ hc)) hr2 hb ht

theorem restAfterKey_isSome (key : Chars) :
    ∀ l, (restAfterKey key l).isSome = containsCI key l := by
  intro l
  induction l with
  | nil =>
    simp only [restAfterKey, containsCI]
    split
    · rename_i h; simp [h]
    · rename_i h
      simp only [Option.isSome_none]
      cases hc : keyPrefixCI key [] with
      | false => rfl
      | true => exact absurd hc h
  | cons c l2 ih =>
    simp only [restAfterKey, containsCI]
    split
    · rename_i h; simp [h]
    · rename_i h
      rw [ih]
      cases hc : keyPrefixCI key (c :: l2) with
      | false => simp
      | true => exact absurd hc h

theorem length_filterMap_eq_countP (f : Chars → Option Chars) :
    ∀ L : List Chars, (L.filterMap f).length = L.countP (fun x => (f x).isSome) := by
  intro L
  induction L with
  | nil => rfl
  | cons x L2 ih =>
    rw [List.filterMap_cons, List.countP_cons]
    rcases hf : f x with _ | v
    · simp [hf, ih]
    · simp [hf, ih]

theorem findAll_joinLines (key : Chars) (hk : key ≠ []) (hnlk : '\n' ∉ key) :
    ∀ L : List Chars, (∀ l ∈ L, '\n' ∉ l ∧ goodLineB key l = true) →
      findAll key (joinLines L) = L.filterMap (lineVal key) := by
  intro L
  induction L with
  | nil => intro _; rfl
  | cons l L2 ih =>
    intro h
    obtain ⟨hnl, hgood⟩ := h l (List.mem_cons_self l L2)
    have hrest := fun x hx => h x (List.mem_cons_of_mem _ hx)
    cases L2 with
    | nil =>
      show findAll key l = List.filterMap (lineVal key) [l]
      rcases hr : restAfterKey key l with _ | b
      · have hcont : containsCI key l = false := by
          rw [← restAfterKey_isSome key l, hr]
          rfl
        have hstep := findAll_skip key hk hnlk l [] hcont (Or.inl rfl)
        rw [List.append_nil] at hstep
        rw [hstep]
        simp [List.filterMap_cons, lineVal, hr, findAll_nil]
      · have hbany : b.any (fun c => !(pySpace c)) = true := by
          have hg := hgood
          simp only [goodLineB, hr] at hg
          exact hg
        have hstep := findAll_line key hk hnlk l b [] hnl hr hbany (Or.inl rfl)
        rw [List.append_nil] at hstep
        rw [hstep]
        simp [List.filterMap_cons, lineVal, hr, findAll_nil]
    | cons l2 L3 =>
      show findAll key (l ++ '\n' :: joinLines (l2 :: L3)) = _
      have hbound : NlBound ('\n' :: joinLines (l2 :: L3)) := Or.inr ⟨_, rfl⟩
      rcases hr : restAfterKey key l with _ | b
      · have hcont : containsCI key l = false := by
          rw [← restAfterKey_isSome key l, hr]
          rfl
        rw [findAll_skip key hk hnlk l _ hcont hbound,
          findAll_nlhead key hk hnlk _, ih hrest]
        simp [List.filterMap_cons, lineVal, hr]
      · have hbany : b.any (fun c => !(pySpace c)) = true := by
          have hg := hgood
          simp only [goodLineB, hr] at hg
          exact hg
        rw [findAll_line key hk hnlk l b _ hnl hr hbany hbound,
          findAll_nlhead key hk hnlk _, ih hrest]
        simp [List.filterMap_cons, lineVal, hr]

/-- Claim C1 counterexample: the scan is not anchored to line starts — the
one-line description `see Mod ID: A` has no line beginning with `Mod ID:`,
yet the extractor returns one candidate (`A`) instead of the empty list the
claim requires for a description with no matching line. -/
theorem C1_counterexample :
    keyPrefixCI modKey (strChars ("see Mod ID: A")) = false
    ∧ fieldCandidates modKey (strChars ("see Mod ID: A")) = [strChars ("A")] := by
  constructor
  · decide
  · rfl

/-- Claim C1, amended: matches are taken from lines *containing* the key
followed by a colon (case-insensitive), not only lines beginning with it.
For a description assembled from newline-free lines, each of which has at
least one non-whitespace character after its first key occurrence whenever
it contains a key, the extractor returns exactly one candidate per line
containing `Mod ID:` and one per line containing `Map Folder:` (so `k` such
mod lines and `m` such map lines give exactly `k` and `m` candidates, and a
description with no matching line gives the empty list), in line order, each
candidate being the remainder of its line after the key with surrounding
whitespace, carriage returns/newlines, and the stray `[/hr]` marker
stripped. -/
theorem C1_amended (L : List Chars)
    (h : ∀ l ∈ L, '\n' ∉ l ∧ goodLineB modKey l = true ∧ goodLineB mapKey l = true) :
    fieldCandidates modKey (joinLines L) =
      (L.filterMap (lineVal modKey)).map cleanValue
    ∧ fieldCandidates mapKey (joinLines L) =
      (L.filterMap (lineVal mapKey)).map cleanValue
    ∧ (fieldCandidates modKey (joinLines L)).length = L.countP (containsCI modKey)
    ∧ (fieldCandidates mapKey (joinLines L)).length = L.countP (containsCI mapKey) := by
  have hmod : findAll modKey (joinLines L) = L.filterMap (lineVal modKey) :=
    findAll_joinLines modKey (by decide) (by decide) L
      (fun l hl => ⟨(h l hl).1, (h l hl).2.1⟩)
  have hmap : findAll mapKey (joinLines L) = L.filterMap (lineVal mapKey) :=
    findAll_joinLines mapKey (by decide) (by decide) L
      (fun l hl => ⟨(h l hl).1, (h l hl).2.2⟩)
  have hcount : ∀ key : Chars,
      (L.filterMap (lineVal key)).length = L.countP (containsCI key) := by
    intro key
    rw [length_filterMap_eq_countP]
    have hfun : (fun x => (lineVal key x).isSome) = containsCI key := by
      funext x
      rw [← restAfterKey_isSome key x, lineVal]
      cases restAfterKey key x <;> rfl
    rw [hfun]
  refine ⟨?_, ?_, ?_, ?_⟩
  · show (findAll modKey (joinLines L)).map cleanValue = _
    rw [hmod]
  · show (findAll mapKey (joinLines L)).map cleanValue = _
    rw [hmap]
  · show ((findAll modKey (joinLines L)).map cleanValue).length = _
    rw [List.length_map, hmod, hcount]
  · show ((findAll mapKey (joinLines L)).map cleanValue).length = _
    rw [List.length_map, hmap, hcount]

theorem C1_amended_witness :
    (∀ l ∈ [strChars ("Mod ID: Alpha"), strChars ("nothing here"),
        strChars ("Map Folder: town1")],
      '\n' ∉ l ∧ goodLineB modKey l = true ∧ goodLineB mapKey l = true)
    ∧ fieldCandidates modKey (joinLines [strChars ("Mod ID: Alpha"),
        strChars ("nothing here"), strChars ("Map Folder: town1")]) =
      ([strChars ("Mod ID: Alpha"), strChars ("nothing here"),
        strChars ("Map Folder: town1")].filterMap (lineVal modKey)).map cleanValue :=
  ⟨by decide, (C1_amended _ (by decide)).1⟩
